import Mathlib

/-!
# Verification development for the KeyValueDatabase repository

A shallow embedding, in Lean 4, of the core of the sidquark/KeyValueDatabase
Go program: the sharded in-memory `HashTable` (hashtable.go), the append-only
`Log` with its wire format, checksum and compaction (`persistence` package),
the `Recovery` scanner, and the `database.DB` layer (`Set`, `Get`, `Delete`,
`Keys`, `Size`, `Close`), together with theorems settling the specification
claims about them.

Modelling conventions:
* Go byte slices and strings on the wire are `List Nat` with every element
  below 256.
* Go `int64` timestamps are modelled by their `uint64` bit pattern (a `Nat`
  below `2 ^ 64`), which is exactly how both the serializer and the checksum
  treat them (`uint64(entry.Timestamp)`); machine-width casts such as Go's
  `uint32(len(...))` become explicit `% 2 ^ 32` truncation inside `leBytes`.
* A `nil` Go byte slice is `none`; a present (possibly empty) slice is
  `some v`.  The log entry value is the one place the code distinguishes the
  two, so there the model keeps `Option`.
* File-system side effects are modelled by their observable result: the byte
  contents of the log file.  Fallible operations return `Option`.
-/

namespace KVDB

/-- Little-endian encoding of a natural into `n` bytes, least significant
byte first; truncates modulo `2 ^ (8 * n)` exactly like Go's
`binary.LittleEndian.PutUintN` applied to a truncating cast. -/
def leBytes : Nat → Nat → List Nat
  | 0, _ => []
  | n + 1, v => v % 256 :: leBytes n (v / 256)

/-- Little-endian decoding of a byte list, least significant byte first;
models `binary.LittleEndian.UintN`. -/
def leDecode : List Nat → Nat
  | [] => 0
  | b :: t => b + 256 * leDecode t

theorem leBytes_length (n v : Nat) : (leBytes n v).length = n := by
  induction n generalizing v with
  | zero => rfl
  | succ n ih => simp [leBytes, ih]

theorem leBytes_lt (n v : Nat) : ∀ b ∈ leBytes n v, b < 256 := by
  induction n generalizing v with
  | zero => simp [leBytes]
  | succ n ih =>
    intro b hb
    simp only [leBytes, List.mem_cons] at hb
    rcases hb with h | h
    · omega
    · exact ih _ b h

theorem leDecode_leBytes (n v : Nat) : leDecode (leBytes n v) = v % 256 ^ n := by
  induction n generalizing v with
  | zero => simp [leBytes, leDecode, Nat.mod_one]
  | succ n ih =>
    simp only [leBytes, leDecode, ih]
    rw [pow_succ', Nat.mod_mul]

theorem leDecode_leBytes_of_lt {n v : Nat} (h : v < 256 ^ n) :
    leDecode (leBytes n v) = v := by
  rw [leDecode_leBytes, Nat.mod_eq_of_lt h]

/-! ## CRC32 (IEEE), modelling Go's `hash/crc32.ChecksumIEEE`

The Go standard library computes the reflected CRC-32 with polynomial
`0xEDB88320`: the running value starts at `0xFFFFFFFF`; per input byte `b`
it becomes `table[byte(crc) ^ b] ^ (crc >> 8)` where `table[i]` applies
eight conditional shift-and-xor bit steps to `i`; the final value is
complemented (xor with `0xFFFFFFFF`).  On naturals, `>> 8` is `/ 256` and
`byte(x)` is `% 256`. -/

/-- Reflected IEEE CRC-32 polynomial, `0xEDB88320`. -/
def crcPoly : Nat := 0xEDB88320

/-- One bit step of the table construction. -/
def crcBitStep (c : Nat) : Nat := if c % 2 = 1 then c / 2 ^^^ crcPoly else c / 2

/-- Iterated bit steps. -/
def crcIter : Nat → Nat → Nat
  | 0, c => c
  | n + 1, c => crcIter n (crcBitStep c)

/-- Entry `i` of the IEEE CRC-32 lookup table. -/
def crcTable (i : Nat) : Nat := crcIter 8 i

/-- Per-byte update of the running CRC value. -/
def crcUpdate (c b : Nat) : Nat := c / 256 ^^^ crcTable ((c ^^^ b) % 256)

/-- Running the CRC over a byte list from a given state. -/
def crcLoop (c : Nat) (bs : List Nat) : Nat := bs.foldl crcUpdate c

/-- CRC32 of a byte list, as `hash/crc32.ChecksumIEEE` computes it. -/
def crc32 (bs : List Nat) : Nat := crcLoop 4294967295 bs ^^^ 4294967295

/-- The 256 table entries, materialized for the two finite checks below. -/
def crcTableList : List Nat := (List.range 256).map crcTable

set_option maxRecDepth 40000 in
set_option maxHeartbeats 2000000 in
theorem crcTableList_pairwise :
    crcTableList.Pairwise (fun a b => 2 ^ 24 ≤ a ^^^ b) := by decide

set_option maxRecDepth 40000 in
theorem crcTableList_lt : ∀ x ∈ crcTableList, x < 2 ^ 32 := by decide

theorem crcTable_lt (i : Nat) (hi : i < 256) : crcTable i < 2 ^ 32 :=
  crcTableList_lt (crcTable i) (List.mem_map_of_mem crcTable (List.mem_range.2 hi))

theorem crcTableList_length : crcTableList.length = 256 := by
  simp [crcTableList]

theorem crcTableList_get (i : Nat) (h : i < crcTableList.length) :
    crcTableList.get ⟨i, h⟩ = crcTable i := by
  have h2 : i < 256 := by rw [crcTableList_length] at h; exact h
  have h' : i < (List.range 256).length := by rw [List.length_range]; exact h2
  simp only [crcTableList, List.get_eq_getElem, List.getElem_map]
  congr 1
  exact List.getElem_range i h'

theorem crcTable_xor_ge {i j : Nat} (hi : i < 256) (hj : j < 256) (hne : i ≠ j) :
    2 ^ 24 ≤ crcTable i ^^^ crcTable j := by
  have hp := List.pairwise_iff_get.1 crcTableList_pairwise
  have hi' : i < crcTableList.length := by rw [crcTableList_length]; exact hi
  have hj' : j < crcTableList.length := by rw [crcTableList_length]; exact hj
  rcases Nat.lt_or_ge i j with hij | hij
  · have := hp ⟨i, hi'⟩ ⟨j, hj'⟩ hij
    rwa [crcTableList_get, crcTableList_get] at this
  · have hij' : j < i := Nat.lt_of_le_of_ne hij (Ne.symm hne)
    have := hp ⟨j, hj'⟩ ⟨i, hi'⟩ (by exact hij')
    rw [crcTableList_get, crcTableList_get] at this
    rwa [Nat.xor_comm] at this

theorem crcTable_ne {i j : Nat} (hi : i < 256) (hj : j < 256) (hne : i ≠ j) :
    crcTable i ≠ crcTable j := by
  intro h
  have := crcTable_xor_ge hi hj hne
  rw [h, Nat.xor_self] at this
  omega

/-! ### Generic xor facts used below -/

theorem xor_mod_two_pow (x y n : Nat) :
    (x ^^^ y) % 2 ^ n = x % 2 ^ n ^^^ y % 2 ^ n := by
  apply Nat.eq_of_testBit_eq
  intro i
  simp only [Nat.testBit_mod_two_pow, Nat.testBit_xor]
  by_cases h : i < n <;> simp [h]

theorem xor_mod256 (x y : Nat) : (x ^^^ y) % 256 = x % 256 ^^^ y % 256 := by
  have := xor_mod_two_pow x y 8
  norm_num at this
  exact this

theorem xor_left_cancel {a b c : Nat} (h : a ^^^ b = a ^^^ c) : b = c := by
  have h2 := congrArg (fun x => a ^^^ x) h
  simpa [← Nat.xor_assoc, Nat.xor_self, Nat.zero_xor] using h2

theorem xor_right_cancel {a b c : Nat} (h : a ^^^ c = b ^^^ c) : a = b := by
  rw [Nat.xor_comm a c, Nat.xor_comm b c] at h
  exact xor_left_cancel h

theorem xor_cross {a b c d : Nat} (h : a ^^^ b = c ^^^ d) : a ^^^ c = b ^^^ d := by
  apply Nat.eq_of_testBit_eq
  intro i
  have h2 := congrArg (fun x => Nat.testBit x i) h
  simp only [Nat.testBit_xor] at h2 ⊢
  revert h2
  cases a.testBit i <;> cases b.testBit i <;> cases c.testBit i <;>
    cases d.testBit i <;> simp

/-! ### CRC collision-freedom under a single byte flip -/

theorem crcUpdate_lt {c : Nat} (b : Nat) (hc : c < 2 ^ 32) : crcUpdate c b < 2 ^ 32 := by
  apply Nat.xor_lt_two_pow
  · exact Nat.lt_of_le_of_lt (Nat.div_le_self c 256) hc
  · exact crcTable_lt _ (Nat.mod_lt _ (by norm_num))

theorem crcUpdate_ne_byte {c b b' : Nat} (hb : b < 256) (hb' : b' < 256)
    (hne : b ≠ b') : crcUpdate c b ≠ crcUpdate c b' := by
  intro h
  have hll : (c ^^^ b) % 256 ≠ (c ^^^ b') % 256 := by
    intro he
    rw [xor_mod256, xor_mod256, Nat.mod_eq_of_lt hb, Nat.mod_eq_of_lt hb'] at he
    exact hne (xor_left_cancel he)
  have ht : crcTable ((c ^^^ b) % 256) ≠ crcTable ((c ^^^ b') % 256) :=
    crcTable_ne (Nat.mod_lt _ (by norm_num)) (Nat.mod_lt _ (by norm_num)) hll
  exact ht (xor_left_cancel h)

theorem crcUpdate_inj_state {c c' : Nat} (b : Nat) (hc : c < 2 ^ 32)
    (hc' : c' < 2 ^ 32) (hne : c ≠ c') : crcUpdate c b ≠ crcUpdate c' b := by
  intro h
  by_cases hl : (c ^^^ b) % 256 = (c' ^^^ b) % 256
  · have hmod : c % 256 = c' % 256 := by
      rw [xor_mod256, xor_mod256] at hl
      exact xor_right_cancel hl
    have hdiv : c / 256 = c' / 256 := by
      unfold crcUpdate at h
      rw [hl] at h
      exact xor_right_cancel h
    apply hne
    have e1 := Nat.div_add_mod c 256
    have e2 := Nat.div_add_mod c' 256
    omega
  · have hcross : c / 256 ^^^ c' / 256 =
        crcTable ((c ^^^ b) % 256) ^^^ crcTable ((c' ^^^ b) % 256) := xor_cross h
    have hge : 2 ^ 24 ≤ crcTable ((c ^^^ b) % 256) ^^^ crcTable ((c' ^^^ b) % 256) :=
      crcTable_xor_ge (Nat.mod_lt _ (by norm_num)) (Nat.mod_lt _ (by norm_num)) hl
    have hlt : c / 256 ^^^ c' / 256 < 2 ^ 24 := by
      apply Nat.xor_lt_two_pow
      · rw [Nat.div_lt_iff_lt_mul (by norm_num : (0:Nat) < 256)]
        calc c < 2 ^ 32 := hc
        _ = 2 ^ 24 * 256 := by norm_num
      · rw [Nat.div_lt_iff_lt_mul (by norm_num : (0:Nat) < 256)]
        calc c' < 2 ^ 32 := hc'
        _ = 2 ^ 24 * 256 := by norm_num
    rw [hcross] at hlt
    omega

theorem crcLoop_lt {bs : List Nat} {c : Nat} (hc : c < 2 ^ 32) :
    crcLoop c bs < 2 ^ 32 := by
  induction bs generalizing c with
  | nil => exact hc
  | cons x t ih => exact ih (crcUpdate_lt x hc)

theorem crcLoop_inj {bs : List Nat} {c c' : Nat} (hc : c < 2 ^ 32)
    (hc' : c' < 2 ^ 32) (hne : c ≠ c') : crcLoop c bs ≠ crcLoop c' bs := by
  induction bs generalizing c c' with
  | nil => exact hne
  | cons x t ih =>
    exact ih (crcUpdate_lt x hc) (crcUpdate_lt x hc')
      (crcUpdate_inj_state x hc hc' hne)

theorem crcLoop_flip {pre suf : List Nat} {b b' c : Nat} (hc : c < 2 ^ 32)
    (hb : b < 256) (hb' : b' < 256) (hne : b ≠ b') :
    crcLoop c (pre ++ b :: suf) ≠ crcLoop c (pre ++ b' :: suf) := by
  induction pre generalizing c with
  | nil =>
    simp only [List.nil_append]
    exact crcLoop_inj (crcUpdate_lt b hc) (crcUpdate_lt b' hc)
      (crcUpdate_ne_byte hb hb' hne)
  | cons x t ih =>
    simp only [List.cons_append]
    exact ih (crcUpdate_lt x hc)

theorem crc32_lt (bs : List Nat) : crc32 bs < 2 ^ 32 :=
  Nat.xor_lt_two_pow (crcLoop_lt (by norm_num)) (by norm_num)

theorem crc32_flip {pre suf : List Nat} {b b' : Nat} (hb : b < 256)
    (hb' : b' < 256) (hne : b ≠ b') :
    crc32 (pre ++ b :: suf) ≠ crc32 (pre ++ b' :: suf) := by
  unfold crc32
  intro h
  exact crcLoop_flip (by norm_num) hb hb' hne (xor_right_cancel h)

theorem crc32_set_ne {l : List Nat} {i b : Nat} (hi : i < l.length)
    (hb : b < 256) (horig : l.getD i 0 < 256) (hne : b ≠ l.getD i 0) :
    crc32 (l.set i b) ≠ crc32 l := by
  have hset : l.set i b = l.take i ++ b :: l.drop (i + 1) := by
    rw [List.set_eq_take_append_cons_drop, if_pos hi]
  have hl : l = l.take i ++ l.getD i 0 :: l.drop (i + 1) := by
    conv_lhs => rw [← List.take_append_drop i l]
    rw [List.getD_eq_getElem l 0 hi, List.getElem_cons_drop l i hi]
  rw [hset]
  conv_rhs => rw [hl]
  exact crc32_flip hb horig hne

/-! ## Log entries and the wire format (`Log.serializeEntry`,
`Log.calculateChecksum` in hashtable.go) -/

/-- Operation tag `OperationSet` (Go `iota + 1`). -/
def OperationSet : Nat := 1

/-- Operation tag `OperationDelete`. -/
def OperationDelete : Nat := 2

/-- Mirror of `persistence.LogEntry`.  `Timestamp` holds the `uint64` bit
pattern of the Go `int64` (both the serializer and the checksum only ever
see that pattern); `Value` is `none` for a `nil` Go slice and `some v` for a
present slice. -/
structure LogEntry where
  Timestamp : Nat
  Operation : Nat
  Key : List Nat
  Value : Option (List Nat)
  Checksum : Nat
deriving DecidableEq, Repr

/-- Value bytes as the serializer emits them (`nil` contributes nothing). -/
def valueBytes (e : LogEntry) : List Nat :=
  match e.Value with
  | some v => v
  | none => []

/-- Byte string the checksum is computed over (`Log.calculateChecksum`):
timestamp bytes, operation byte, key bytes, then the value bytes when the
value slice is non-`nil`. -/
def checksumData (e : LogEntry) : List Nat :=
  leBytes 8 e.Timestamp ++ [e.Operation] ++ e.Key ++
    (match e.Value with
     | some v => v
     | none => [])

/-- `Log.calculateChecksum`: CRC32-IEEE over the pre-checksum bytes. -/
def calculateChecksum (e : LogEntry) : Nat := crc32 (checksumData e)

/-- The serialized record: 8-byte little-endian timestamp, 1-byte operation,
2-byte little-endian key length, key bytes, 4-byte little-endian value
length (`uint32(len)`; 0 for a `nil` value), value bytes, 4-byte
little-endian checksum. -/
def encodeEntry (e : LogEntry) : List Nat :=
  leBytes 8 e.Timestamp ++ [e.Operation] ++ leBytes 2 e.Key.length ++ e.Key ++
    leBytes 4 (valueBytes e).length ++ valueBytes e ++ leBytes 4 e.Checksum

/-- `Log.serializeEntry`, with the pieces appended in the order the Go code
writes them; a key longer than 65535 bytes yields the "key is too long"
error, modelled as `none`. -/
def serializeEntry (e : LogEntry) : Option (List Nat) :=
  if e.Key.length > 65535 then none
  else
    some (leBytes 8 e.Timestamp ++ [e.Operation] ++ leBytes 2 e.Key.length ++
      e.Key ++
      (match e.Value with
       | some v => leBytes 4 v.length ++ v
       | none => leBytes 4 0) ++
      leBytes 4 e.Checksum)

/-- Number of bytes of a serialized record. -/
def encLen (e : LogEntry) : Nat := 19 + e.Key.length + (valueBytes e).length

/-- Structural well-formedness of a modelled entry: every field fits the
machine width its Go type imposes (bytes below 256, `uint64` timestamp,
`uint16`-bounded key length, `uint32`-bounded value length and checksum). -/
def wfEntry (e : LogEntry) : Bool :=
  decide (e.Timestamp < 2 ^ 64) && decide (e.Operation < 256) &&
  e.Key.all (fun b => decide (b < 256)) && decide (e.Key.length ≤ 65535) &&
  (match e.Value with
   | none => true
   | some v => v.all (fun b => decide (b < 256)) && decide (v.length < 2 ^ 32)) &&
  decide (e.Checksum < 2 ^ 32)

/-! ## Recovery (`Recovery.readEntry`, `Recovery.RecoverEntries`) -/

/-- Result of one `io.ReadFull` call on the modelled byte stream: end of
stream (`io.EOF`), a short read (`io.ErrUnexpectedEOF`, reporting the bytes
consumed), or a full chunk plus the remaining stream. -/
inductive RF where
  | eof : RF
  | short : Nat → RF
  | full : List Nat → List Nat → RF
deriving DecidableEq, Repr

/-- `io.ReadFull(reader, make([]byte, n))`: a zero-length request succeeds
at once; an empty stream yields `io.EOF`; fewer than `n` available bytes are
all consumed and the read is short; otherwise exactly `n` bytes are
consumed. -/
def readFull (n : Nat) (bs : List Nat) : RF :=
  if n = 0 then .full [] bs
  else if bs.length = 0 then .eof
  else if bs.length < n then .short bs.length
  else .full (bs.take n) (bs.drop n)

/-- Result of `Recovery.readEntry`: a propagated `io.EOF` (clean end of the
scan), a corrupted or truncated record together with the bytes consumed for
it, or a decoded entry together with the bytes consumed. -/
inductive ReadResult where
  | eof : ReadResult
  | corrupted : Nat → ReadResult
  | entry : LogEntry → Nat → ReadResult
deriving DecidableEq, Repr

/-- `Recovery.readEntry`: sequential `io.ReadFull` calls for each wire-format
field, followed by the checksum validation that recomputes the CRC over the
decoded fields.  A zero value length leaves the value `nil`, as in the Go
code. -/
def readEntry (bs : List Nat) : ReadResult :=
  match readFull 8 bs with
  | .eof => .eof
  | .short g => .corrupted g
  | .full tsB r1 =>
    match readFull 1 r1 with
    | .eof => .eof
    | .short g => .corrupted (8 + g)
    | .full opB r2 =>
      match readFull 2 r2 with
      | .eof => .eof
      | .short g => .corrupted (9 + g)
      | .full klB r3 =>
        let klen := leDecode klB
        match readFull klen r3 with
        | .eof => .eof
        | .short g => .corrupted (11 + g)
        | .full keyB r4 =>
          match readFull 4 r4 with
          | .eof => .eof
          | .short g => .corrupted (11 + klen + g)
          | .full vlB r5 =>
            let vlen := leDecode vlB
            match readFull vlen r5 with
            | .eof => .eof
            | .short g => .corrupted (15 + klen + g)
            | .full valB r6 =>
              match readFull 4 r6 with
              | .eof => .eof
              | .short g => .corrupted (15 + klen + vlen + g)
              | .full ckB _ =>
                let e : LogEntry :=
                  { Timestamp := leDecode tsB
                    Operation := opB.headD 0
                    Key := keyB
                    Value := if vlen = 0 then none else some valB
                    Checksum := leDecode ckB }
                if calculateChecksum e = e.Checksum then .entry e (19 + klen + vlen)
                else .corrupted (19 + klen + vlen)

/-- Fuel-indexed scan loop of `Recovery.RecoverEntries`: stop at end of
file, skip over the bytes already consumed for a corrupted record, collect a
decoded entry, continue.  The fuel only serves termination; `bs.length` is
always enough since every non-EOF attempt consumes at least one byte. -/
def recoverGo : Nat → List Nat → List LogEntry
  | 0, _ => []
  | fuel + 1, bs =>
    match readEntry bs with
    | .eof => []
    | .corrupted n => recoverGo fuel (bs.drop n)
    | .entry e n => e :: recoverGo fuel (bs.drop n)

/-- `Recovery.RecoverEntries` applied to the log file's byte contents. -/
def recoverEntries (bs : List Nat) : List LogEntry := recoverGo bs.length bs

/-! ## The sharded in-memory HashTable (hashtable.go, package storage) -/

/-- `HashTable.hash`: sums the character codes of the key (the Go `range`
loop iterates the string's runes) and reduces modulo the bucket count. -/
def htHash (bucketSize : Nat) (key : List Nat) : Nat :=
  (key.foldl (fun h c => h + c) 0) % bucketSize

abbrev Key := List Nat

abbrev Value := List Nat

/-- Removal from the index (Go `delete(bucket.entries, key)`), on the
association-list model of the bucket maps. -/
def idxDelete (k : Key) : List (Key × Value) → List (Key × Value)
  | [] => []
  | (k', v') :: t => if k' = k then idxDelete k t else (k', v') :: idxDelete k t

/-- Upsert into the index (Go `bucket.entries[key] = value`). -/
def idxSet (k : Key) (v : Value) (l : List (Key × Value)) : List (Key × Value) :=
  idxDelete k l ++ [(k, v)]

/-- Lookup (Go `value, exists := bucket.entries[key]`). -/
def idxGet (k : Key) : List (Key × Value) → Option Value
  | [] => none
  | (k', v') :: t => if k' = k then some v' else idxGet k t

/-! ## The database layer (`database.DB`) -/

/-- Error kinds of the database layer (errors.go). -/
inductive DBErr where
  | emptyKey : DBErr
  | nilValue : DBErr
  | notFound : DBErr
  | closed : DBErr
  | writeFailed : DBErr
deriving DecidableEq, Repr

/-- Engine state: the in-memory index, the in-memory view of the records
appended to the log so far, and the closed flag. -/
structure DBState where
  index : List (Key × Value)
  log : List LogEntry
  isClosed : Bool
deriving DecidableEq, Repr

/-- The state of a freshly created database with an absent or empty log. -/
def dbInit : DBState := { index := [], log := [], isClosed := false }

/-- `Log.Append` fills in the entry checksum before serializing, so a stored
record carries `calculateChecksum` of its own pre-checksum fields. -/
def mkRecord (ts op : Nat) (k : Key) (v : Option (List Nat)) : LogEntry :=
  { Timestamp := ts, Operation := op, Key := k, Value := v,
    Checksum := calculateChecksum
      { Timestamp := ts, Operation := op, Key := k, Value := v, Checksum := 0 } }

/-- `DB.Set`.  `ts` is the wall-clock timestamp `Append` records; `appendOk`
models the buffered write and flush succeeding, and a key over 65535 bytes
makes `serializeEntry`, hence `Append`, fail as well.  On append failure the
code "rolls back" with `storage.Delete(key)` after having stored the new
value. -/
def setOp (s : DBState) (k : Key) (v : Option Value) (ts : Nat)
    (appendOk : Bool) : DBState × Option DBErr :=
  if s.isClosed then (s, some .closed)
  else if k = [] then (s, some .emptyKey)
  else
    match v with
    | none => (s, some .nilValue)
    | some v =>
      let s1 := { s with index := idxSet k v s.index }
      if appendOk && decide (k.length ≤ 65535) then
        ({ s1 with log := s1.log ++ [mkRecord ts OperationSet k (some v)] }, none)
      else
        ({ s1 with index := idxDelete k s1.index }, some .writeFailed)

/-- `DB.Get`. -/
def getOp (s : DBState) (k : Key) : Except DBErr Value :=
  if s.isClosed then .error .closed
  else if k = [] then .error .emptyKey
  else
    match idxGet k s.index with
    | none => .error .notFound
    | some v => .ok v

/-- `DB.Delete`: checks existence, removes from the index, then appends; a
failed append is reported but the index removal is not undone. -/
def deleteOp (s : DBState) (k : Key) (ts : Nat) (appendOk : Bool) :
    DBState × Option DBErr :=
  if s.isClosed then (s, some .closed)
  else if k = [] then (s, some .emptyKey)
  else
    match idxGet k s.index with
    | none => (s, some .notFound)
    | some _ =>
      let s1 := { s with index := idxDelete k s.index }
      if appendOk && decide (k.length ≤ 65535) then
        ({ s1 with log := s1.log ++ [mkRecord ts OperationDelete k none] }, none)
      else (s1, some .writeFailed)

/-- `DB.Keys`. -/
def keysOp (s : DBState) : List Key :=
  if s.isClosed then [] else s.index.map Prod.fst

/-- `DB.Size`. -/
def sizeOp (s : DBState) : Nat :=
  if s.isClosed then 0 else s.index.length

/-- `DB.Close`; `flushOk` models the final `writer.Flush` and `file.Close`
succeeding.  A second call returns `nil` at once. -/
def closeOp (s : DBState) (flushOk : Bool) : DBState × Option DBErr :=
  if s.isClosed then (s, none)
  else if flushOk then ({ s with isClosed := true }, none)
  else (s, some .writeFailed)

/-- One step of `DB.recoverFromLog`'s replay: Set upserts, Delete removes,
any other tag falls through the `switch`.  `storage.Set` on a decoded `nil`
value stores the empty byte sequence. -/
def replayEntry (idx : List (Key × Value)) (e : LogEntry) : List (Key × Value) :=
  if e.Operation = OperationSet then idxSet e.Key (e.Value.getD []) idx
  else if e.Operation = OperationDelete then idxDelete e.Key idx
  else idx

/-- Replaying a record list in order into an empty index
(`DB.recoverFromLog`). -/
def replayIdx (es : List LogEntry) : List (Key × Value) :=
  es.foldl replayEntry []

/-- One client call together with its injected environment: the timestamp
`Append` would use and whether the log write succeeds. -/
inductive Action where
  | set : Key → Option Value → Nat → Bool → Action
  | del : Key → Nat → Bool → Action
  | get : Key → Action
  | close : Bool → Action
deriving DecidableEq, Repr

/-- State transition of one client call. -/
def applyAction (s : DBState) : Action → DBState
  | .set k v ts aOk => (setOp s k v ts aOk).1
  | .del k ts aOk => (deleteOp s k ts aOk).1
  | .get _ => s
  | .close fOk => (closeOp s fOk).1

/-- Running a call history from a fresh database. -/
def runHistory (acts : List Action) : DBState := acts.foldl applyAction dbInit

/-- Serialized log file contents for a record list. -/
def encList (es : List LogEntry) : List Nat := (es.map encodeEntry).flatten

/-- `Log.Compact`: the code creates the temporary file, writes nothing into
it ("we'll just create an empty log (simplified)"), flushes and closes the
old handles, renames the temporary file over `database.log` and reopens it;
so after a successful `Compact` the log file contents are empty, whatever
they were before. -/
def compactLogFile (_old : List Nat) : List Nat := []

/-! ## Index lemmas -/

theorem idxGet_delete_self (k : Key) (l : List (Key × Value)) :
    idxGet k (idxDelete k l) = none := by
  induction l with
  | nil => rfl
  | cons p t ih =>
    obtain ⟨k', v'⟩ := p
    show idxGet k (if k' = k then idxDelete k t else (k', v') :: idxDelete k t) = none
    by_cases hk : k' = k
    · rw [if_pos hk]
      exact ih
    · rw [if_neg hk]
      show (if k' = k then some v' else idxGet k (idxDelete k t)) = none
      rw [if_neg hk]
      exact ih

theorem idxGet_delete_ne {k q : Key} (h : q ≠ k) (l : List (Key × Value)) :
    idxGet q (idxDelete k l) = idxGet q l := by
  induction l with
  | nil => rfl
  | cons p t ih =>
    obtain ⟨k', v'⟩ := p
    show idxGet q (if k' = k then idxDelete k t else (k', v') :: idxDelete k t) =
      idxGet q ((k', v') :: t)
    by_cases hk : k' = k
    · rw [if_pos hk, ih]
      show idxGet q t = if k' = q then some v' else idxGet q t
      rw [if_neg (fun he : k' = q => h (he.symm.trans hk))]
    · rw [if_neg hk]
      show (if k' = q then some v' else idxGet q (idxDelete k t)) =
        (if k' = q then some v' else idxGet q t)
      rw [ih]

theorem idxGet_append_none {k : Key} {l1 : List (Key × Value)}
    (h : idxGet k l1 = none) (l2 : List (Key × Value)) :
    idxGet k (l1 ++ l2) = idxGet k l2 := by
  induction l1 with
  | nil => rfl
  | cons p t ih =>
    obtain ⟨k', v'⟩ := p
    have h' : (if k' = k then some v' else idxGet k t) = none := h
    by_cases hk : k' = k
    · rw [if_pos hk] at h'
      exact absurd h' (by simp)
    · rw [if_neg hk] at h'
      show (if k' = k then some v' else idxGet k (t ++ l2)) = idxGet k l2
      rw [if_neg hk]
      exact ih h'

theorem idxGet_append_some {k : Key} {l1 : List (Key × Value)} {x : Value}
    (h : idxGet k l1 = some x) (l2 : List (Key × Value)) :
    idxGet k (l1 ++ l2) = some x := by
  induction l1 with
  | nil => exact absurd h (by simp [idxGet])
  | cons p t ih =>
    obtain ⟨k', v'⟩ := p
    have h' : (if k' = k then some v' else idxGet k t) = some x := h
    show (if k' = k then some v' else idxGet k (t ++ l2)) = some x
    by_cases hk : k' = k
    · rw [if_pos hk] at h'
      rw [if_pos hk]
      exact h'
    · rw [if_neg hk] at h'
      rw [if_neg hk]
      exact ih h'

theorem idxGet_set_self (k : Key) (v : Value) (l : List (Key × Value)) :
    idxGet k (idxSet k v l) = some v := by
  unfold idxSet
  rw [idxGet_append_none (idxGet_delete_self k l)]
  show (if k = k then some v else idxGet k []) = some v
  rw [if_pos rfl]

theorem idxGet_set_ne {k q : Key} (h : q ≠ k) (v : Value)
    (l : List (Key × Value)) : idxGet q (idxSet k v l) = idxGet q l := by
  unfold idxSet
  cases hx : idxGet q (idxDelete k l) with
  | none =>
    rw [idxGet_append_none hx]
    show (if k = q then some v else idxGet q []) = idxGet q l
    rw [if_neg (fun he : k = q => h he.symm)]
    rw [← idxGet_delete_ne h l, hx]
    rfl
  | some x =>
    rw [idxGet_append_some hx, ← idxGet_delete_ne h l, hx]

/-! ## Replay equivalence machinery (claim C3) -/

theorem replayIdx_append_one (es : List LogEntry) (e : LogEntry) :
    replayIdx (es ++ [e]) = replayEntry (replayIdx es) e := by
  simp [replayIdx, List.foldl_append]

/-- A call whose log write cannot fail: reads and closes always, mutating
calls when the flush succeeds and the key fits the 16-bit length bound (so
that `serializeEntry` cannot fail either). -/
def appendSafe : Action → Bool
  | .set k _ _ aOk => aOk && decide (k.length ≤ 65535)
  | .del k _ aOk => aOk && decide (k.length ≤ 65535)
  | .get _ => true
  | .close _ => true

theorem applyAction_replay {s : DBState} (a : Action)
    (hsafe : appendSafe a = true) (hinv : s.index = replayIdx s.log) :
    (applyAction s a).index = replayIdx (applyAction s a).log := by
  cases a with
  | set k v ts aOk =>
    show (setOp s k v ts aOk).1.index = replayIdx (setOp s k v ts aOk).1.log
    unfold setOp
    by_cases hc : s.isClosed
    · rw [if_pos hc]
      exact hinv
    · rw [if_neg hc]
      by_cases hk : k = []
      · rw [if_pos hk]
        exact hinv
      · rw [if_neg hk]
        cases v with
        | none => exact hinv
        | some v =>
          have hs : (aOk && decide (k.length ≤ 65535)) = true := hsafe
          simp only [hs, if_true]
          show idxSet k v s.index =
            replayIdx (s.log ++ [mkRecord ts OperationSet k (some v)])
          rw [replayIdx_append_one, hinv]
          simp [replayEntry, mkRecord, OperationSet]
  | del k ts aOk =>
    show (deleteOp s k ts aOk).1.index = replayIdx (deleteOp s k ts aOk).1.log
    unfold deleteOp
    by_cases hc : s.isClosed
    · rw [if_pos hc]
      exact hinv
    · rw [if_neg hc]
      by_cases hk : k = []
      · rw [if_pos hk]
        exact hinv
      · rw [if_neg hk]
        cases hg : idxGet k s.index with
        | none =>
          simp only [hg]
          exact hinv
        | some x =>
          have hs : (aOk && decide (k.length ≤ 65535)) = true := hsafe
          simp only [hg, hs, if_true]
          show idxDelete k s.index =
            replayIdx (s.log ++ [mkRecord ts OperationDelete k none])
          rw [replayIdx_append_one, hinv]
          simp [replayEntry, mkRecord, OperationDelete, OperationSet]
  | get k => exact hinv
  | close fOk =>
    show (closeOp s fOk).1.index = replayIdx (closeOp s fOk).1.log
    unfold closeOp
    by_cases hc : s.isClosed
    · rw [if_pos hc]
      exact hinv
    · rw [if_neg hc]
      cases fOk <;> simpa using hinv

theorem foldl_replay (acts : List Action) (s : DBState)
    (h : acts.all appendSafe = true) (hinv : s.index = replayIdx s.log) :
    (acts.foldl applyAction s).index =
      replayIdx ((acts.foldl applyAction s).log) := by
  induction acts generalizing s with
  | nil => exact hinv
  | cons a t ih =>
    simp only [List.all_cons, Bool.and_eq_true] at h
    exact ih _ h.2 (applyAction_replay a h.1 hinv)

/-! ## Wire-format lemmas -/

theorem wfEntry_spec {e : LogEntry} (h : wfEntry e = true) :
    e.Timestamp < 2 ^ 64 ∧ e.Operation < 256 ∧ (∀ b ∈ e.Key, b < 256) ∧
      e.Key.length ≤ 65535 ∧
      (∀ v, e.Value = some v → (∀ b ∈ v, b < 256) ∧ v.length < 2 ^ 32) ∧
      e.Checksum < 2 ^ 32 := by
  unfold wfEntry at h
  simp only [Bool.and_eq_true, decide_eq_true_eq, List.all_eq_true] at h
  obtain ⟨⟨⟨⟨⟨h1, h2⟩, h3⟩, h4⟩, h5⟩, h6⟩ := h
  refine ⟨h1, h2, h3, h4, ?_, h6⟩
  intro v hv
  rw [hv] at h5
  simp only [Bool.and_eq_true, decide_eq_true_eq, List.all_eq_true] at h5
  exact h5

theorem valueBytes_lt {e : LogEntry} (h : wfEntry e = true) :
    ∀ b ∈ valueBytes e, b < 256 := by
  obtain ⟨-, -, -, -, hv, -⟩ := wfEntry_spec h
  unfold valueBytes
  cases he : e.Value with
  | none => simp
  | some v => exact (hv v he).1

theorem valueBytes_len_lt {e : LogEntry} (h : wfEntry e = true) :
    (valueBytes e).length < 2 ^ 32 := by
  obtain ⟨-, -, -, -, hv, -⟩ := wfEntry_spec h
  unfold valueBytes
  cases he : e.Value with
  | none => simp
  | some v => exact (hv v he).2

theorem readFull_exact {l : List Nat} {n : Nat} (h : l.length = n)
    (r : List Nat) : readFull n (l ++ r) = .full l r := by
  subst h
  unfold readFull
  by_cases hn : l.length = 0
  · have hl : l = [] := List.eq_nil_of_length_eq_zero hn
    subst hl
    simp
  · rw [if_neg hn]
    have hlen : (l ++ r).length = l.length + r.length := by simp
    rw [if_neg (by omega), if_neg (by omega), List.take_left, List.drop_left]

theorem encodeEntry_length (e : LogEntry) : (encodeEntry e).length = encLen e := by
  simp [encodeEntry, encLen, leBytes_length]
  omega

theorem encList_cons (e : LogEntry) (t : List LogEntry) :
    encList (e :: t) = encodeEntry e ++ encList t := by
  simp [encList]

theorem encList_nil : encList [] = [] := rfl

theorem length_le_encList (es : List LogEntry) :
    es.length ≤ (encList es).length := by
  induction es with
  | nil => simp [encList]
  | cons e t ih =>
    rw [encList_cons]
    have h1 : (encodeEntry e).length = encLen e := encodeEntry_length e
    have h2 : 19 ≤ encLen e := by unfold encLen; omega
    simp only [List.length_append, List.length_cons]
    omega

/-- Decoded form of a serialized entry: a zero-length value comes back as
the `nil` slice. -/
def canonEntry (e : LogEntry) : LogEntry :=
  { Timestamp := e.Timestamp, Operation := e.Operation, Key := e.Key,
    Value := if valueBytes e = [] then none else some (valueBytes e),
    Checksum := e.Checksum }

theorem canonEntry_eq_self {e : LogEntry} (h : e.Value ≠ some []) :
    canonEntry e = e := by
  obtain ⟨ts, op, k, v, ck⟩ := e
  unfold canonEntry valueBytes
  cases v with
  | none => simp
  | some l =>
    cases l with
    | nil => exact absurd rfl h
    | cons x t => simp

theorem checksumData_eq (e : LogEntry) :
    checksumData e =
      (leBytes 8 e.Timestamp ++ [e.Operation]) ++ (e.Key ++ valueBytes e) := by
  unfold checksumData valueBytes
  cases e.Value <;> simp

theorem checksumData_canon (e : LogEntry) :
    checksumData (canonEntry e) = checksumData e := by
  rw [checksumData_eq, checksumData_eq]
  unfold canonEntry valueBytes
  cases he : e.Value with
  | none => simp
  | some v => cases v <;> simp

theorem calculateChecksum_canon (e : LogEntry) :
    calculateChecksum (canonEntry e) = calculateChecksum e := by
  unfold calculateChecksum
  rw [checksumData_canon]

theorem readEntry_encode (e : LogEntry) (rest : List Nat)
    (hwf : wfEntry e = true) :
    readEntry (encodeEntry e ++ rest) =
      if calculateChecksum e = e.Checksum then
        .entry (canonEntry e) (encLen e)
      else
        .corrupted (encLen e) := by
  obtain ⟨hts, hop, hkey, hklen, hval, hck⟩ := wfEntry_spec hwf
  have hvlen : (valueBytes e).length < 2 ^ 32 := valueBytes_len_lt hwf
  have hregroup : encodeEntry e ++ rest =
      leBytes 8 e.Timestamp ++ ([e.Operation] ++ (leBytes 2 e.Key.length ++
        (e.Key ++ (leBytes 4 (valueBytes e).length ++ (valueBytes e ++
          (leBytes 4 e.Checksum ++ rest)))))) := by
    simp [encodeEntry, List.append_assoc]
  have hts' : leDecode (leBytes 8 e.Timestamp) = e.Timestamp :=
    leDecode_leBytes_of_lt (by norm_num at hts ⊢; omega)
  have hkl' : leDecode (leBytes 2 e.Key.length) = e.Key.length :=
    leDecode_leBytes_of_lt (by norm_num; omega)
  have hvl' : leDecode (leBytes 4 (valueBytes e).length) = (valueBytes e).length :=
    leDecode_leBytes_of_lt (by norm_num at hvlen ⊢; omega)
  have hck' : leDecode (leBytes 4 e.Checksum) = e.Checksum :=
    leDecode_leBytes_of_lt (by norm_num at hck ⊢; omega)
  have hshape : ({ Timestamp := e.Timestamp, Operation := e.Operation,
                   Key := e.Key,
                   Value := if (valueBytes e).length = 0 then none
                            else some (valueBytes e),
                   Checksum := e.Checksum } : LogEntry) = canonEntry e := by
    unfold canonEntry
    congr 1
    by_cases hv : valueBytes e = []
    · simp [hv]
    · rw [if_neg hv, if_neg (fun hl => hv (List.eq_nil_of_length_eq_zero hl))]
  rw [hregroup]
  simp only [readEntry, readFull_exact, leBytes_length, List.length_cons,
    List.length_nil, List.headD_cons, hts', hkl', hvl', hck']
  rw [hshape, calculateChecksum_canon]
  simp [encLen]

/-! ## Recovery composition -/

theorem recoverGo_nil (fuel : Nat) : recoverGo fuel [] = [] := by
  cases fuel <;> rfl

theorem recoverGo_encode_entry {e : LogEntry} (rest : List Nat) (fuel : Nat)
    (hwf : wfEntry e = true) (hck : calculateChecksum e = e.Checksum) :
    recoverGo (fuel + 1) (encodeEntry e ++ rest) =
      canonEntry e :: recoverGo fuel rest := by
  have hr := readEntry_encode e rest hwf
  rw [if_pos hck] at hr
  simp only [recoverGo, hr]
  rw [← encodeEntry_length e, List.drop_left]

theorem recoverGo_encode_skip {e : LogEntry} (rest : List Nat) (fuel : Nat)
    (hwf : wfEntry e = true) (hck : ¬calculateChecksum e = e.Checksum) :
    recoverGo (fuel + 1) (encodeEntry e ++ rest) = recoverGo fuel rest := by
  have hr := readEntry_encode e rest hwf
  rw [if_neg hck] at hr
  simp only [recoverGo, hr]
  rw [← encodeEntry_length e, List.drop_left]

/-- A record as `Log.Append` actually writes it: structurally well formed,
sealed with its own checksum, and with a value that is either absent or
non-empty (the decoded form; a present empty value cannot survive a decode). -/
def goodEntry (e : LogEntry) : Bool :=
  wfEntry e && decide (e.Checksum = calculateChecksum e) &&
    decide (e.Value ≠ some [])

theorem goodEntry_spec {e : LogEntry} (h : goodEntry e = true) :
    wfEntry e = true ∧ e.Checksum = calculateChecksum e ∧ e.Value ≠ some [] := by
  unfold goodEntry at h
  simp only [Bool.and_eq_true, decide_eq_true_eq] at h
  exact ⟨h.1.1, h.1.2, h.2⟩

theorem recoverGo_encList (es : List LogEntry) (rest : List Nat) (fuel : Nat)
    (hgood : es.all goodEntry = true) :
    recoverGo (es.length + fuel) (encList es ++ rest) =
      es ++ recoverGo fuel rest := by
  induction es generalizing fuel with
  | nil => simp [encList_nil]
  | cons e t ih =>
    simp only [List.all_cons, Bool.and_eq_true] at hgood
    obtain ⟨hwf, hck, hcanon⟩ := goodEntry_spec hgood.1
    rw [encList_cons, List.append_assoc]
    have hlen : (e :: t).length + fuel = t.length + fuel + 1 := by
      simp [List.length_cons]
      omega
    rw [hlen, recoverGo_encode_entry _ _ hwf hck.symm, canonEntry_eq_self hcanon,
      ih fuel hgood.2]
    rfl

theorem recoverEntries_encList (es : List LogEntry)
    (hgood : es.all goodEntry = true) : recoverEntries (encList es) = es := by
  unfold recoverEntries
  have h1 : es.length ≤ (encList es).length := length_le_encList es
  have h2 : (encList es).length = es.length + ((encList es).length - es.length) := by
    omega
  rw [h2]
  have h3 : encList es = encList es ++ [] := by simp
  conv_lhs => rw [h3]
  rw [recoverGo_encList es [] _ hgood, recoverGo_nil]
  simp

/-! ## Single-byte payload corruption (claim C4) -/

theorem set_append_right (l1 l2 : List Nat) (j b : Nat) :
    (l1 ++ l2).set (l1.length + j) b = l1 ++ l2.set j b := by
  induction l1 with
  | nil => simp
  | cons x t ih =>
    simp only [List.cons_append, List.length_cons]
    have : t.length + 1 + j = (t.length + j) + 1 := by omega
    rw [this]
    simp only [List.set]
    rw [ih]

theorem set_append_left (l1 l2 : List Nat) {j : Nat} (b : Nat)
    (h : j < l1.length) : (l1 ++ l2).set j b = l1.set j b ++ l2 := by
  induction l1 generalizing j with
  | nil => simp at h
  | cons x t ih =>
    cases j with
    | zero => simp [List.set]
    | succ m =>
      show x :: (t ++ l2).set m b = x :: (t.set m b ++ l2)
      rw [ih (by simpa using h)]

theorem getD_append_right (l1 l2 : List Nat) (j d : Nat) :
    (l1 ++ l2).getD (l1.length + j) d = l2.getD j d := by
  induction l1 with
  | nil => simp
  | cons x t ih =>
    simp only [List.cons_append, List.length_cons]
    have : t.length + 1 + j = (t.length + j) + 1 := by omega
    rw [this]
    simpa [List.getD] using ih

/-- Flipping the byte at offset `i` of a record's payload (`i` indexes the
concatenation of the key bytes and the value bytes). -/
def flipPayload (e : LogEntry) (i b : Nat) : LogEntry :=
  if i < e.Key.length then { e with Key := e.Key.set i b }
  else { e with Value := e.Value.map fun v => v.set (i - e.Key.length) b }

theorem flipPayload_checksum (e : LogEntry) (i b : Nat) :
    (flipPayload e i b).Checksum = e.Checksum := by
  unfold flipPayload
  by_cases h : i < e.Key.length <;> simp [h]

theorem checksumData_length (e : LogEntry) :
    (checksumData e).length = 9 + e.Key.length + (valueBytes e).length := by
  rw [checksumData_eq]
  simp [leBytes_length]
  omega

theorem checksumData_bytes_lt {e : LogEntry} (h : wfEntry e = true) :
    ∀ x ∈ checksumData e, x < 256 := by
  obtain ⟨-, hop, hkey, -, -, -⟩ := wfEntry_spec h
  have hvb := valueBytes_lt h
  rw [checksumData_eq]
  intro x hx
  simp only [List.append_assoc, List.mem_append, List.mem_cons,
    List.not_mem_nil, or_false, List.mem_singleton] at hx
  rcases hx with h1 | h1 | h1 | h1
  · exact leBytes_lt 8 e.Timestamp x h1
  · rw [h1]; exact hop
  · exact hkey x h1
  · exact hvb x h1

theorem checksumData_setKey (e : LogEntry) (k' : List Nat) :
    checksumData { e with Key := k' } =
      (leBytes 8 e.Timestamp ++ [e.Operation]) ++ (k' ++ valueBytes e) := by
  rw [checksumData_eq]
  rfl

theorem valueBytes_map_none {e : LogEntry} (he : e.Value = none)
    (f : List Nat → List Nat) :
    valueBytes { e with Value := e.Value.map f } = [] := by
  unfold valueBytes
  rw [he]
  rfl

theorem valueBytes_map_some {e : LogEntry} {v : List Nat}
    (he : e.Value = some v) (f : List Nat → List Nat) :
    valueBytes { e with Value := e.Value.map f } = f v := by
  unfold valueBytes
  rw [he]
  rfl

theorem checksumData_setVal (e : LogEntry) {v : List Nat}
    (hv : e.Value = some v) (j b : Nat) :
    checksumData { e with Value := e.Value.map fun w => w.set j b } =
      (leBytes 8 e.Timestamp ++ [e.Operation]) ++ (e.Key ++ v.set j b) := by
  rw [checksumData_eq, valueBytes_map_some hv]

theorem checksumData_flip {e : LogEntry} (i b : Nat)
    (hi : i < e.Key.length + (valueBytes e).length) :
    checksumData (flipPayload e i b) = (checksumData e).set (9 + i) b := by
  have hp9 : (leBytes 8 e.Timestamp ++ [e.Operation]).length = 9 := by
    simp [leBytes_length]
  rw [checksumData_eq e,
    show 9 + i = (leBytes 8 e.Timestamp ++ [e.Operation]).length + i from by
      rw [hp9],
    set_append_right]
  unfold flipPayload
  by_cases hk : i < e.Key.length
  · rw [if_pos hk, set_append_left _ _ b hk, checksumData_setKey]
  · rw [if_neg hk]
    obtain ⟨v, hv⟩ : ∃ v, e.Value = some v := by
      cases he : e.Value with
      | none =>
        exfalso
        have hnil : valueBytes e = [] := by unfold valueBytes; rw [he]
        rw [hnil] at hi
        simp at hi
        omega
      | some v => exact ⟨v, rfl⟩
    have hvb : valueBytes e = v := by unfold valueBytes; rw [hv]
    rw [hvb,
      show (e.Key ++ v).set i b = e.Key ++ v.set (i - e.Key.length) b from by
        conv_lhs => rw [show i = e.Key.length + (i - e.Key.length) from by omega]
        rw [set_append_right],
      checksumData_setVal e hv]

theorem flipPayload_encLen (e : LogEntry) (i b : Nat) :
    encLen (flipPayload e i b) = encLen e := by
  unfold flipPayload encLen
  by_cases hk : i < e.Key.length
  · rw [if_pos hk]
    show 19 + (e.Key.set i b).length + (valueBytes { e with Key := e.Key.set i b }).length = _
    rw [show valueBytes { e with Key := e.Key.set i b } = valueBytes e from rfl,
      List.length_set]
  · rw [if_neg hk]
    show 19 + e.Key.length +
      (valueBytes { e with Value := e.Value.map fun w => w.set (i - e.Key.length) b }).length =
        19 + e.Key.length + (valueBytes e).length
    by_cases he : e.Value = none
    · rw [valueBytes_map_none he,
        show valueBytes e = [] from by unfold valueBytes; rw [he]]
    · obtain ⟨v, hv⟩ := Option.ne_none_iff_exists'.mp he
      rw [valueBytes_map_some hv, List.length_set,
        show valueBytes e = v from by unfold valueBytes; rw [hv]]

theorem wfEntry_flip {e : LogEntry} (i b : Nat) (hwf : wfEntry e = true)
    (hb : b < 256) : wfEntry (flipPayload e i b) = true := by
  unfold flipPayload
  by_cases hk : i < e.Key.length
  · rw [if_pos hk]
    unfold wfEntry at hwf ⊢
    simp only [Bool.and_eq_true, decide_eq_true_eq, List.all_eq_true] at hwf ⊢
    obtain ⟨⟨⟨⟨⟨h1, h2⟩, h3⟩, h4⟩, h5⟩, h6⟩ := hwf
    refine ⟨⟨⟨⟨⟨h1, h2⟩, ?_⟩, ?_⟩, h5⟩, h6⟩
    · intro x hx
      rcases List.mem_or_eq_of_mem_set hx with h | h
      · exact h3 x h
      · omega
    · rw [List.length_set]
      exact h4
  · rw [if_neg hk]
    unfold wfEntry at hwf ⊢
    simp only [Bool.and_eq_true, decide_eq_true_eq, List.all_eq_true] at hwf ⊢
    obtain ⟨⟨⟨⟨⟨h1, h2⟩, h3⟩, h4⟩, h5⟩, h6⟩ := hwf
    refine ⟨⟨⟨⟨⟨h1, h2⟩, h3⟩, h4⟩, ?_⟩, h6⟩
    cases hv : e.Value with
    | none => rfl
    | some v =>
      rw [hv] at h5
      simp only [Bool.and_eq_true, decide_eq_true_eq, List.all_eq_true] at h5
      simp only [Option.map_some', Bool.and_eq_true, decide_eq_true_eq,
        List.all_eq_true]
      constructor
      · intro x hx
        rcases List.mem_or_eq_of_mem_set hx with h | h
        · exact h5.1 x h
        · omega
      · rw [List.length_set]
        exact h5.2

theorem flipPayload_checksum_bad {e : LogEntry} {i b : Nat}
    (hgood : goodEntry e = true)
    (hi : i < e.Key.length + (valueBytes e).length) (hb : b < 256)
    (hbne : b ≠ (e.Key ++ valueBytes e).getD i 0) :
    ¬calculateChecksum (flipPayload e i b) = (flipPayload e i b).Checksum := by
  obtain ⟨hwf, hck, -⟩ := goodEntry_spec hgood
  rw [flipPayload_checksum, hck]
  unfold calculateChecksum
  rw [checksumData_flip i b hi]
  have hp9 : (leBytes 8 e.Timestamp ++ [e.Operation]).length = 9 := by
    simp [leBytes_length]
  have hlen : 9 + i < (checksumData e).length := by
    rw [checksumData_length]
    omega
  have horigD : (checksumData e).getD (9 + i) 0 = (e.Key ++ valueBytes e).getD i 0 := by
    rw [checksumData_eq, show 9 + i = (leBytes 8 e.Timestamp ++ [e.Operation]).length + i
        from by rw [hp9],
      getD_append_right]
  have horig : (checksumData e).getD (9 + i) 0 < 256 := by
    rw [List.getD_eq_getElem _ 0 hlen]
    exact checksumData_bytes_lt hwf _ (List.getElem_mem hlen)
  exact crc32_set_ne hlen hb horig (by rw [horigD]; exact hbne)

theorem serializeEntry_eq {e : LogEntry} (h : e.Key.length ≤ 65535) :
    serializeEntry e = some (encodeEntry e) := by
  unfold serializeEntry encodeEntry valueBytes
  rw [if_neg (by omega)]
  cases e.Value <;> simp [List.append_assoc]

/-! ## Claim theorems -/

/-- C1 (code bug): `Log.Compact` replaces the log with an empty file instead
of rewriting the live index entries.  After the history `Set("a","1")` the
index holds `a ↦ "1"`, the compacted log file is empty, and recovering from
it and replaying yields the empty index — not the pre-compaction index the
claim (and §4.4 of the spec) requires. -/
theorem C1_compact_empties_log :
    (runHistory [Action.set [97] (some [49]) 0 true]).index = [([97], [49])] ∧
    compactLogFile
      (encList (runHistory [Action.set [97] (some [49]) 0 true]).log) = [] ∧
    replayIdx (recoverEntries (compactLogFile
      (encList (runHistory [Action.set [97] (some [49]) 0 true]).log))) = [] ∧
    replayIdx (recoverEntries (compactLogFile
      (encList (runHistory [Action.set [97] (some [49]) 0 true]).log))) ≠
      (runHistory [Action.set [97] (some [49]) 0 true]).index := by
  decide

/-- C2 (code bug): with `a ↦ "1"` stored and logged, a `Set("a","2")` whose
append fails reports the write failure but the "rollback"
(`storage.Delete(key)`) removes the key entirely instead of restoring the
previous value `"1"`; a `Delete("a")` whose append fails leaves the key
removed from the index without undoing anything. -/
theorem C2_failed_append_rollback_wrong :
    (setOp (runHistory [Action.set [97] (some [49]) 0 true])
        [97] (some [50]) 1 false).2 = some DBErr.writeFailed ∧
    (runHistory [Action.set [97] (some [49]) 0 true]).index = [([97], [49])] ∧
    (setOp (runHistory [Action.set [97] (some [49]) 0 true])
        [97] (some [50]) 1 false).1.index = [] ∧
    (deleteOp (runHistory [Action.set [97] (some [49]) 0 true])
        [97] 1 false).2 = some DBErr.writeFailed ∧
    (deleteOp (runHistory [Action.set [97] (some [49]) 0 true])
        [97] 1 false).1.index = [] := by
  decide

/-- C3 counterexample: after a successful `Set("a","1")` followed by a
`Set("a","2")` whose log append fails, the index is empty while replaying
the records appended so far yields `a ↦ "1"` — the broken rollback breaks
replay equivalence for histories containing failed appends. -/
theorem C3_counterexample :
    (runHistory [Action.set [97] (some [49]) 0 true,
        Action.set [97] (some [50]) 1 false]).index ≠
      replayIdx (runHistory [Action.set [97] (some [49]) 0 true,
        Action.set [97] (some [50]) 1 false]).log ∧
    (runHistory [Action.set [97] (some [49]) 0 true,
        Action.set [97] (some [50]) 1 false]).index = [] ∧
    replayIdx (runHistory [Action.set [97] (some [49]) 0 true,
        Action.set [97] (some [50]) 1 false]).log = [([97], [49])] := by
  decide

/-- C3 (amended): for every sequence of client calls in which no log append
fails (reads, closes, validation rejections and not-found rejections may
occur freely), the index equals the replay of the appended records, in
order, into an empty index — Set as upsert, Delete as removal. -/
theorem C3_replay_equivalence (acts : List Action)
    (h : acts.all appendSafe = true) :
    (runHistory acts).index = replayIdx (runHistory acts).log :=
  foldl_replay acts dbInit h rfl

/-- C3 witness: a concrete failure-free history with an overwrite, a delete,
a not-found delete and a rejected empty-key set. -/
theorem C3_replay_equivalence_witness :
    ([Action.set [97] (some [49]) 0 true, Action.set [97] (some [50]) 1 true,
        Action.del [98] 2 true, Action.set [] (some [51]) 3 true,
        Action.del [97] 4 true] : List Action).all appendSafe = true ∧
    (runHistory [Action.set [97] (some [49]) 0 true,
        Action.set [97] (some [50]) 1 true, Action.del [98] 2 true,
        Action.set [] (some [51]) 3 true, Action.del [97] 4 true]).index =
      replayIdx (runHistory [Action.set [97] (some [49]) 0 true,
        Action.set [97] (some [50]) 1 true, Action.del [98] 2 true,
        Action.set [] (some [51]) 3 true, Action.del [97] 4 true]).log :=
  ⟨by decide, C3_replay_equivalence _ (by decide)⟩

/-- C4: in a log of well-formed records, flipping one byte inside one
record's key or value payload makes that record's checksum validation fail,
`readEntry` consumes exactly the record's bytes, and `RecoverEntries`
returns every record before and after it, unchanged and in order, skipping
exactly the corrupted one. -/
theorem C4_flip_skips_exactly_one (pre suf : List LogEntry) (e : LogEntry)
    (i b : Nat) (hpre : pre.all goodEntry = true)
    (hsuf : suf.all goodEntry = true) (he : goodEntry e = true)
    (hi : i < e.Key.length + (valueBytes e).length) (hb : b < 256)
    (hbne : b ≠ (e.Key ++ valueBytes e).getD i 0) :
    readEntry (encodeEntry (flipPayload e i b) ++ encList suf) =
      .corrupted (encLen e) ∧
    recoverEntries
        (encList pre ++ (encodeEntry (flipPayload e i b) ++ encList suf)) =
      pre ++ suf := by
  obtain ⟨hwf, hck, hcanon⟩ := goodEntry_spec he
  have hFwf : wfEntry (flipPayload e i b) = true := wfEntry_flip i b hwf hb
  have hFbad := flipPayload_checksum_bad he hi hb hbne
  constructor
  · rw [readEntry_encode _ _ hFwf, if_neg hFbad, flipPayload_encLen]
  · unfold recoverEntries
    have hlen1 : pre.length ≤ (encList pre).length := length_le_encList pre
    have hlen2 : suf.length ≤ (encList suf).length := length_le_encList suf
    have hlenE : (encodeEntry (flipPayload e i b)).length = encLen e := by
      rw [encodeEntry_length, flipPayload_encLen]
    have hE19 : 19 ≤ encLen e := by unfold encLen; omega
    have hbsl : (encList pre ++ (encodeEntry (flipPayload e i b) ++
        encList suf)).length = (encList pre).length +
          ((encodeEntry (flipPayload e i b)).length + (encList suf).length) := by
      simp
    have h1 : (encList pre ++ (encodeEntry (flipPayload e i b) ++
        encList suf)).length = pre.length +
          ((encList pre ++ (encodeEntry (flipPayload e i b) ++
            encList suf)).length - pre.length) := by
      omega
    rw [h1, recoverGo_encList pre _ _ hpre]
    have h2 : (encList pre ++ (encodeEntry (flipPayload e i b) ++
        encList suf)).length - pre.length =
          ((encList pre ++ (encodeEntry (flipPayload e i b) ++
            encList suf)).length - pre.length - 1) + 1 := by
      omega
    rw [h2, recoverGo_encode_skip _ _ hFwf hFbad]
    have h3 : (encList pre ++ (encodeEntry (flipPayload e i b) ++
        encList suf)).length - pre.length - 1 =
          suf.length + ((encList pre ++ (encodeEntry (flipPayload e i b) ++
            encList suf)).length - pre.length - 1 - suf.length) := by
      omega
    rw [h3, show encList suf = encList suf ++ [] from by simp,
      recoverGo_encList suf [] _ hsuf, recoverGo_nil]
    simp

/-- C4 witness: a three-record log whose middle record gets byte 1 of its
key payload flipped from 99 to 100; recovery returns exactly the first and
third records. -/
theorem C4_flip_witness :
    readEntry (encodeEntry
        (flipPayload (mkRecord 6 1 [98, 99] (some [50, 51])) 1 100) ++
        encList [mkRecord 7 2 [97] none]) =
      .corrupted (encLen (mkRecord 6 1 [98, 99] (some [50, 51]))) ∧
    recoverEntries (encList [mkRecord 5 1 [97] (some [49])] ++
        (encodeEntry
          (flipPayload (mkRecord 6 1 [98, 99] (some [50, 51])) 1 100) ++
          encList [mkRecord 7 2 [97] none])) =
      [mkRecord 5 1 [97] (some [49])] ++ [mkRecord 7 2 [97] none] :=
  C4_flip_skips_exactly_one [mkRecord 5 1 [97] (some [49])]
    [mkRecord 7 2 [97] none] (mkRecord 6 1 [98, 99] (some [50, 51])) 1 100
    (by decide) (by decide) (by decide) (by decide) (by decide) (by decide)

/-- C5 counterexample: an entry whose value is the present-but-empty slice
serializes to a record whose value length is 0, and the decoder hands back
the `nil` value — the decoded entry is not equal to the original, although
its checksum validates (the result is `entry`, not `corrupted`). -/
theorem C5_counterexample :
    readEntry ((serializeEntry (mkRecord 0 1 [97] (some []))).getD []) =
      .entry { mkRecord 0 1 [97] (some []) with Value := none } 20 ∧
    ({ mkRecord 0 1 [97] (some []) with Value := none } : LogEntry) ≠
      mkRecord 0 1 [97] (some []) := by
  decide

/-- C5 (amended): for every well-formed sealed entry whose value is not the
present-but-empty slice, the serializer emits `encodeEntry e` and decoding
those bytes (before any continuation) returns the entry itself, with its
checksum validating. -/
theorem C5_round_trip (e : LogEntry) (rest : List Nat)
    (hwf : wfEntry e = true) (hck : e.Checksum = calculateChecksum e)
    (hv : e.Value ≠ some []) :
    serializeEntry e = some (encodeEntry e) ∧
    readEntry (encodeEntry e ++ rest) = .entry e (encLen e) := by
  obtain ⟨-, -, -, hklen, -, -⟩ := wfEntry_spec hwf
  refine ⟨serializeEntry_eq hklen, ?_⟩
  rw [readEntry_encode e rest hwf, if_pos hck.symm, canonEntry_eq_self hv]

/-- C5 witness: a concrete Set record round-trips exactly. -/
theorem C5_round_trip_witness :
    serializeEntry (mkRecord 11 1 [97, 98] (some [1, 2, 3])) =
      some (encodeEntry (mkRecord 11 1 [97, 98] (some [1, 2, 3]))) ∧
    readEntry (encodeEntry (mkRecord 11 1 [97, 98] (some [1, 2, 3])) ++ []) =
      .entry (mkRecord 11 1 [97, 98] (some [1, 2, 3]))
        (encLen (mkRecord 11 1 [97, 98] (some [1, 2, 3]))) :=
  C5_round_trip (mkRecord 11 1 [97, 98] (some [1, 2, 3])) []
    (by decide) (by decide) (by decide)

/-- C6: every record the Log serializes is exactly the 8-byte little-endian
timestamp, the 1-byte operation tag (Set = 1, Delete = 2), the 2-byte
little-endian key length, the key bytes, the 4-byte little-endian value
length (0 for an absent value), the value bytes, and the 4-byte
little-endian checksum, where the checksum field of a sealed record is the
IEEE CRC32 of timestamp ‖ operation ‖ key ‖ value; a key over 65535 bytes
makes serialization fail instead. -/
theorem C6_wire_format (e : LogEntry) (hlen : e.Key.length ≤ 65535) :
    serializeEntry e =
      some (leBytes 8 e.Timestamp ++ [e.Operation] ++
        leBytes 2 e.Key.length ++ e.Key ++ leBytes 4 (valueBytes e).length ++
        valueBytes e ++ leBytes 4 e.Checksum) ∧
    calculateChecksum e =
      crc32 (leBytes 8 e.Timestamp ++ [e.Operation] ++ e.Key ++ valueBytes e) ∧
    OperationSet = 1 ∧ OperationDelete = 2 ∧
    (∀ e2 : LogEntry, e2.Key.length > 65535 → serializeEntry e2 = none) := by
  refine ⟨serializeEntry_eq hlen, ?_, rfl, rfl, ?_⟩
  · unfold calculateChecksum
    congr 1
  · intro e2 h2
    unfold serializeEntry
    rw [if_pos h2]

/-- C6 witness: the layout equation holds at a concrete record, and a
65536-byte key is rejected. -/
theorem C6_wire_format_witness :
    (mkRecord 3 1 [97] (some [49])).Key.length ≤ 65535 ∧
    serializeEntry
      { mkRecord 3 1 [97] (some [49]) with Key := List.replicate 65536 0 } =
      none := by
  refine ⟨by decide, (C6_wire_format (mkRecord 3 1 [97] (some [49]))
    (by decide)).2.2.2.2 _ ?_⟩
  show (List.replicate 65536 0).length > 65535
  rw [List.length_replicate]
  omega

/-- C7: on an open database, a successful `Set(k,v)` makes `Get(k)` return
`v`; a successful `Delete(k)` makes `Get(k)` report not-found; and a `Set`
with the empty key is rejected with the empty-key error, leaving the state,
hence `Size()`, unchanged. -/
theorem C7_crud (s : DBState) (k : Key) (v : Value) (ts : Nat) (aOk : Bool) :
    ((setOp s k (some v) ts aOk).2 = none →
      getOp (setOp s k (some v) ts aOk).1 k = .ok v) ∧
    ((deleteOp s k ts aOk).2 = none →
      getOp (deleteOp s k ts aOk).1 k = .error .notFound) ∧
    (s.isClosed = false →
      setOp s [] (some v) ts aOk = (s, some .emptyKey) ∧
      sizeOp (setOp s [] (some v) ts aOk).1 = sizeOp s) := by
  refine ⟨?_, ?_, ?_⟩
  · intro h
    by_cases hc : s.isClosed = true
    · simp [setOp, hc] at h
    · by_cases hk : k = []
      · simp [setOp, hc, hk] at h
      · by_cases hok : (aOk && decide (k.length ≤ 65535)) = true
        · simp [setOp, getOp, hc, hk, hok, idxGet_set_self]
        · simp [setOp, hc, hk, hok] at h
  · intro h
    by_cases hc : s.isClosed = true
    · simp [deleteOp, hc] at h
    · by_cases hk : k = []
      · simp [deleteOp, hc, hk] at h
      · cases hg : idxGet k s.index with
        | none => simp [deleteOp, hc, hk, hg] at h
        | some x =>
          by_cases hok : (aOk && decide (k.length ≤ 65535)) = true
          · simp [deleteOp, getOp, hc, hk, hg, hok, idxGet_delete_self]
          · simp [deleteOp, hc, hk, hg, hok] at h
  · intro h
    have hstate : setOp s [] (some v) ts aOk = (s, some .emptyKey) := by
      simp [setOp, h]
    rw [hstate]
    exact ⟨rfl, rfl⟩

/-- C7 witness: concrete Set-then-Get, Delete-then-Get, and the empty-key
rejection with unchanged size. -/
theorem C7_crud_witness :
    getOp (setOp dbInit [97] (some [49]) 0 true).1 [97] = .ok [49] ∧
    getOp (deleteOp (runHistory [Action.set [97] (some [49]) 0 true])
      [97] 1 true).1 [97] = .error .notFound ∧
    (setOp (runHistory [Action.set [97] (some [49]) 0 true])
        [] (some [50]) 2 true =
      (runHistory [Action.set [97] (some [49]) 0 true], some .emptyKey) ∧
     sizeOp (setOp (runHistory [Action.set [97] (some [49]) 0 true])
        [] (some [50]) 2 true).1 =
      sizeOp (runHistory [Action.set [97] (some [49]) 0 true])) :=
  ⟨(C7_crud dbInit [97] [49] 0 true).1 (by decide),
   (C7_crud (runHistory [Action.set [97] (some [49]) 0 true])
      [97] [49] 1 true).2.1 (by decide),
   (C7_crud (runHistory [Action.set [97] (some [49]) 0 true])
      [] [50] 2 true).2.2 (by decide)⟩

/-- C8: after `Close()` succeeds, `Set`, `Get` and `Delete` all return the
closed error without touching the state, `Keys()` is the empty sequence,
`Size()` is 0, and a second `Close()` returns success immediately whatever
its flush would have done. -/
theorem C8_post_close (s : DBState) (k : Key) (v : Option Value) (ts : Nat)
    (aOk fOk2 : Bool) :
    (closeOp s true).2 = none ∧
    setOp (closeOp s true).1 k v ts aOk = ((closeOp s true).1, some .closed) ∧
    getOp (closeOp s true).1 k = .error .closed ∧
    deleteOp (closeOp s true).1 k ts aOk = ((closeOp s true).1, some .closed) ∧
    keysOp (closeOp s true).1 = [] ∧
    sizeOp (closeOp s true).1 = 0 ∧
    closeOp (closeOp s true).1 fOk2 = ((closeOp s true).1, none) := by
  obtain ⟨s2, hs2, h2c⟩ :
      ∃ s2, closeOp s true = (s2, none) ∧ s2.isClosed = true := by
    unfold closeOp
    by_cases hc : s.isClosed = true
    · rw [if_pos hc]
      exact ⟨s, rfl, hc⟩
    · rw [if_neg hc]
      exact ⟨{ s with isClosed := true }, by simp, rfl⟩
  rw [hs2]
  refine ⟨rfl, ?_, ?_, ?_, ?_, ?_, ?_⟩ <;>
    simp [setOp, getOp, deleteOp, keysOp, sizeOp, closeOp, h2c]

/-- C9 (code bug): `HashTable.hash` is the sum of the key's character codes
modulo the bucket count, so every pair of anagram keys lands in the same
bucket for every bucket count — no anagram pair is ever split across
shards, contradicting the claim. -/
theorem C9_anagrams_always_collide (n : Nat) (k1 k2 : List Nat)
    (h : k1.Perm k2) : htHash n k1 = htHash n k2 := by
  unfold htHash
  have hs : ∀ (l : List Nat) (a : Nat),
      l.foldl (fun acc c => acc + c) a = a + l.sum := by
    intro l
    induction l with
    | nil => intro a; simp
    | cons x t ih =>
      intro a
      rw [List.foldl_cons, ih, List.sum_cons]
      omega
  rw [hs, hs, h.sum_eq]

/-- C9 witness: the anagram keys "ab" and "ba" always share a bucket. -/
theorem C9_anagrams_witness : htHash 1024 [97, 98] = htHash 1024 [98, 97] :=
  C9_anagrams_always_collide 1024 [97, 98] [98, 97] (List.Perm.swap 98 97 [])

/-- C10: on a closed database the closed check runs before input
validation: `Set` with the empty key or the nil value, `Get` with the empty
key and `Delete` with the empty key all return the closed error, not a
validation error, and leave the state untouched. -/
theorem C10_closed_precedes_validation (s : DBState) (k : Key) (v : Value)
    (ts : Nat) (aOk : Bool) (h : s.isClosed = true) :
    setOp s [] (some v) ts aOk = (s, some .closed) ∧
    setOp s k none ts aOk = (s, some .closed) ∧
    getOp s [] = .error .closed ∧
    deleteOp s [] ts aOk = (s, some .closed) := by
  refine ⟨?_, ?_, ?_, ?_⟩ <;> simp [setOp, getOp, deleteOp, h]

/-- C10 witness at a concrete closed database holding a pending key. -/
theorem C10_closed_witness :
    setOp (closeOp (runHistory [Action.set [97] (some [49]) 0 true]) true).1
        [] (some [50]) 1 true =
      ((closeOp (runHistory [Action.set [97] (some [49]) 0 true]) true).1,
        some .closed) ∧
    setOp (closeOp (runHistory [Action.set [97] (some [49]) 0 true]) true).1
        [98] none 1 true =
      ((closeOp (runHistory [Action.set [97] (some [49]) 0 true]) true).1,
        some .closed) ∧
    getOp (closeOp (runHistory [Action.set [97] (some [49]) 0 true]) true).1
        [] = .error .closed ∧
    deleteOp (closeOp (runHistory [Action.set [97] (some [49]) 0 true]) true).1
        [] 1 true =
      ((closeOp (runHistory [Action.set [97] (some [49]) 0 true]) true).1,
        some .closed) :=
  C10_closed_precedes_validation _ [98] [50] 1 true (by decide)

end KVDB
